import Mathlib

/-!
Verification of the wafer-mask layout generator (`100mm_wafer_sample_omegas_mask.py`
and the sibling `sample_chips` scripts) against its natural-language specification.

The geometry kernel (KLayout) is an external collaborator; regions are modelled by
their construction data (boxes, polygons, boolean expressions).  Real-valued
micrometer arithmetic is modelled exactly over `ℚ`; Python's `round` (half-to-even)
and `//` (floor division) are embedded explicitly.  A comparison of the form
`math.sqrt (s) > r` is embedded as `r < 0 ∨ s > r^2`, which is equivalent over the
reals since `s = cx*cx + cy*cy ≥ 0`.
-/

namespace LithoLayouts

/-- Python's built-in `round` (banker's rounding, half-to-even) on an exact
rational value.  `round(x)` returns the nearest integer, ties going to the even
integer. -/
def pyRound (q : ℚ) : ℤ :=
  let f : ℤ := ⌊q⌋
  let frac : ℚ := q - (f : ℚ)
  if frac < 1/2 then f
  else if frac > 1/2 then f + 1
  else if f % 2 = 0 then f else f + 1

/-- Embeds `MaskDesigner._um_to_dbu` / `ChipDesigner._um_to_dbu`:
`int(round(um_value / dbu))`.  Converts micrometers to integer database units. -/
def um_to_dbu (dbu um_value : ℚ) : ℤ :=
  pyRound (um_value / dbu)

/-- Python's `range(a, b)` over integers: the list `a, a+1, …, b-1`
(empty when `b ≤ a`). -/
def pyRange (a b : ℤ) : List ℤ :=
  (List.range (b - a).toNat).map (fun (i : ℕ) => a + (i : ℤ))

/-- The configuration fields of `MaskConfig` and the base `ChipConfig` that the
placement engine (`calculate_chip_positions_from_unit_grid`, `create_unit_cell`)
reads.  All lengths are in micrometers, modelled exactly over `ℚ`. -/
structure PlacementCfg where
  wafer_diameter : ℚ
  wafer_buffer : ℚ
  flat_depth : ℚ
  chip_width : ℚ
  chip_height : ℚ
  chip_spacing : ℚ
  chip_count_x : ℕ
  chip_count_y : ℕ
deriving DecidableEq, Repr

namespace PlacementCfg

/-- Source: `MaskConfig.wafer_radius = wafer_diameter / 2.0`. -/
def wafer_radius (c : PlacementCfg) : ℚ := c.wafer_diameter / 2

/-- Source: `usable_radius = (config.wafer_diameter - 2 * config.wafer_buffer) / 2.0`. -/
def usable_radius (c : PlacementCfg) : ℚ :=
  (c.wafer_diameter - 2 * c.wafer_buffer) / 2

/-- Source: `unit_width = chip_count_x * chip_width + (chip_count_x - 1) * spacing`
(from `create_unit_cell`). -/
def unit_width (c : PlacementCfg) : ℚ :=
  (c.chip_count_x : ℚ) * c.chip_width + ((c.chip_count_x : ℚ) - 1) * c.chip_spacing

/-- Source: `unit_height = chip_count_y * chip_height + (chip_count_y - 1) * spacing`
(from `create_unit_cell`). -/
def unit_height (c : PlacementCfg) : ℚ :=
  (c.chip_count_y : ℚ) * c.chip_height + ((c.chip_count_y : ℚ) - 1) * c.chip_spacing

end PlacementCfg

/-- The default `MaskConfig` of `100mm_wafer_sample_omegas_mask.py` together with
the base `ChipConfig` dimensions: 100 mm wafer, 3 mm buffer, 2.5 mm flat depth,
6 mm × 6 mm chips in a 2×3 unit cell with zero spacing. -/
def defaultCfg : PlacementCfg :=
  { wafer_diameter := 100000
    wafer_buffer := 3000
    flat_depth := 2500
    chip_width := 6000
    chip_height := 6000
    chip_spacing := 0
    chip_count_x := 2
    chip_count_y := 3 }

/-- One corner of a chip rectangle lies strictly outside the usable circle:
the embedding of `math.sqrt(cx*cx + cy*cy) > usable_radius` (exactly equivalent
over the reals: `√s > r ↔ r < 0 ∨ s > r²` for `s ≥ 0`). -/
def cornerOutside (cx cy r : ℚ) : Bool :=
  decide (r < 0) || decide (cx * cx + cy * cy > r * r)

/-- Embeds `MaskDesigner.chip_fits_in_wafer`: true iff all four corners of the chip
rectangle are within the usable radius of the wafer center. -/
def chip_fits_in_wafer (chip_x chip_y chip_width chip_height usable_radius : ℚ) : Bool :=
  let corners : List (ℚ × ℚ) :=
    [(chip_x, chip_y),
     (chip_x + chip_width, chip_y),
     (chip_x, chip_y + chip_height),
     (chip_x + chip_width, chip_y + chip_height)]
  corners.all (fun p => ! cornerOutside p.1 p.2 usable_radius)

/-- The fixed flat exclusion distance: `flat_exclusion_zone = 2250.0` µm. -/
def flat_exclusion_zone : ℚ := 2250

/-- Embeds `MaskDesigner.chip_too_close_to_flat`: true iff the bottom edge of the chip lies
below `flat_y + flat_exclusion_zone`, where `flat_y = -wafer_radius + flat_depth`.
The arguments `chip_x`, `chip_width`, `chip_height` are accepted but unused,
exactly as in the source. -/
def chip_too_close_to_flat (c : PlacementCfg)
    (chip_x chip_y chip_width chip_height : ℚ) : Bool :=
  let flat_y : ℚ := -c.wafer_radius + c.flat_depth
  let _ := chip_x; let _ := chip_width; let _ := chip_height
  decide (chip_y < flat_y + flat_exclusion_zone)

/-- Source: `max_units_x = int(math.ceil(wafer_diameter / unit_width)) + 1`. -/
def max_units_x (c : PlacementCfg) : ℤ :=
  ⌈c.wafer_diameter / c.unit_width⌉ + 1

/-- Source: `max_units_y = int(math.ceil(wafer_diameter / unit_height)) + 1`. -/
def max_units_y (c : PlacementCfg) : ℤ :=
  ⌈c.wafer_diameter / c.unit_height⌉ + 1

/-- The row loop `range(-max_units_y // 2, max_units_y // 2 + 1)`
(Python `//` is floor division). -/
def rowRange (c : PlacementCfg) : List ℤ :=
  pyRange (Int.fdiv (-(max_units_y c)) 2) (Int.fdiv (max_units_y c) 2 + 1)

/-- The column loop `range(-max_units_x // 2, max_units_x // 2 + 1)`. -/
def colRange (c : PlacementCfg) : List ℤ :=
  pyRange (Int.fdiv (-(max_units_x c)) 2) (Int.fdiv (max_units_x c) 2 + 1)

/-- The local chip offsets inside the unit cell, in the order `create_unit_cell`
builds them: for `row in range(chip_count_y)`, `col in range(chip_count_x)`,
local position `(col * (chip_width + spacing), row * (chip_height + spacing))`. -/
def variantSlots (c : PlacementCfg) : List (ℚ × ℚ) :=
  (List.range c.chip_count_y).flatMap (fun (row : ℕ) =>
    (List.range c.chip_count_x).map (fun (col : ℕ) =>
      ((col : ℚ) * (c.chip_width + c.chip_spacing),
       (row : ℚ) * (c.chip_height + c.chip_spacing))))

/-- A candidate die placement: absolute origin `(x, y)` in micrometers and the
variant slot index. -/
structure Placement where
  x : ℚ
  y : ℚ
  variant : ℕ
deriving DecidableEq, Repr

/-- The absolute origin of the candidate die for unit-cell offset
`(unit_row, unit_col)` and local slot position `(lx, ly)`:
`grid_start + unit_col * unit_width + local_x` (and likewise in `y`),
with `grid_start = -unit_width / 2`. -/
def candidateAt (c : PlacementCfg) (unit_row unit_col : ℤ) (lx ly : ℚ) : ℚ × ℚ :=
  (-(c.unit_width) / 2 + (unit_col : ℚ) * c.unit_width + lx,
   -(c.unit_height) / 2 + (unit_row : ℚ) * c.unit_height + ly)

/-- The candidate `Placement` built from a unit-cell offset and an indexed
variant slot. -/
def mkCand (c : PlacementCfg) (unit_row unit_col : ℤ) (s : ℕ × (ℚ × ℚ)) :
    Placement :=
  ⟨(candidateAt c unit_row unit_col s.2.1 s.2.2).1,
   (candidateAt c unit_row unit_col s.2.1 s.2.2).2, s.1⟩

/-- Every candidate die generated by the unit-cell grid scan, in the loop order of
`calculate_chip_positions_from_unit_grid`: rows ascending, then columns ascending,
then variant slots in list order. -/
def candidates (c : PlacementCfg) : List Placement :=
  (rowRange c).flatMap (fun unit_row =>
    (colRange c).flatMap (fun unit_col =>
      (variantSlots c).enum.map (mkCand c unit_row unit_col)))

/-- The combined accept predicate applied to a candidate die:
`chip_fits_in_wafer … and not chip_too_close_to_flat …`. -/
def acceptDie (c : PlacementCfg) (p : Placement) : Bool :=
  chip_fits_in_wafer p.x p.y c.chip_width c.chip_height c.usable_radius &&
    ! chip_too_close_to_flat c p.x p.y c.chip_width c.chip_height

/-- Embeds `MaskDesigner.calculate_chip_positions_from_unit_grid`: the triple-nested scan
over unit-cell rows, columns and variant slots, appending `(chip_x, chip_y,
variant_idx)` exactly when the candidate passes the circle-fit test and is not too
close to the flat. -/
def calculate_chip_positions (c : PlacementCfg) : List Placement :=
  (rowRange c).flatMap (fun unit_row =>
    (colRange c).flatMap (fun unit_col =>
      (variantSlots c).enum.flatMap (fun s =>
        let pl : Placement := mkCand c unit_row unit_col s
        if acceptDie c pl then [pl] else [])))

/-- Embeds `OmegaConfig`: the omega-resonator die-variant parameter bundle
(`center_radius`, `trace_width`, `omega_spacing`, `omega_trace_gap`,
`omega_taper_length`), class defaults 50, 10, 50, 15, 100 µm. -/
structure OmegaConfig where
  center_radius : ℚ
  trace_width : ℚ
  omega_spacing : ℚ
  omega_trace_gap : ℚ
  omega_taper_length : ℚ
deriving DecidableEq, Repr

/-- Embeds `OmegaConfig.__init__`: starts from the class defaults and overrides each
field whose argument `is not None`.  The body performs no validation and
contains no `raise`; embedded into `Except String` (the model of Python
exception flow used in this file), it returns `.ok` on every input. -/
def OmegaConfig.init (center_radius trace_width omega_spacing omega_trace_gap
    omega_taper_length : Option ℚ) : Except String OmegaConfig :=
  .ok { center_radius := center_radius.getD 50
        trace_width := trace_width.getD 10
        omega_spacing := omega_spacing.getD 50
        omega_trace_gap := omega_trace_gap.getD 15
        omega_taper_length := omega_taper_length.getD 100 }

/-! ### Ring-array synthesis (`MaskDesigner.create_omega`)

`create_omega` is embedded as the ordered sequence of kernel operations it
performs (its trace): for each of the four ring positions it builds
`outer_region - inner_region - gap_region` and inserts it, then inserts the
two pair connectors, the four feed lines, the three CPW connection boxes and
the two tapers, each as an individual shape.  The circle tessellation loop
(`cos`/`sin` evaluated in floating point, rounded per vertex) cannot be
embedded exactly; it is abstracted as a parameter `circle` mapping a center
and radius to the vertex list.  All box coordinates follow the source's
formulas through `_um_to_dbu`.  -/

/-- A `pya.Box` in integer database units. -/
structure DbuBox where
  x1 : ℤ
  y1 : ℤ
  x2 : ℤ
  y2 : ℤ
deriving DecidableEq, Repr

/-- Build a box from micrometer corner coordinates through `_um_to_dbu`. -/
def mkBox (dbu x1 y1 x2 y2 : ℚ) : DbuBox :=
  ⟨um_to_dbu dbu x1, um_to_dbu dbu y1, um_to_dbu dbu x2, um_to_dbu dbu y2⟩

/-- The parameters `create_omega` reads: `omega_config` fields, the relevant
`chip_config` fields, the aperture center, and the database unit. -/
structure OmegaParams where
  dbu : ℚ
  x_center : ℚ
  y_center : ℚ
  center_radius : ℚ
  trace_width : ℚ
  omega_spacing : ℚ
  omega_trace_gap : ℚ
  omega_taper_length : ℚ
  aperture_radius : ℚ
  cpw_signal_width : ℚ
deriving DecidableEq, Repr

namespace OmegaParams

/-- Source: `outer_radius = center_radius + trace_width / 2.0`. -/
def outer_radius (p : OmegaParams) : ℚ := p.center_radius + p.trace_width / 2

/-- Source: `inner_radius = center_radius - trace_width / 2.0`. -/
def inner_radius (p : OmegaParams) : ℚ := p.center_radius - p.trace_width / 2

/-- Source: `offset = outer_radius + spacing`. -/
def offset (p : OmegaParams) : ℚ := p.outer_radius + p.omega_spacing

/-- Source: `h_offset = trace_gap / 2.0 + trace_width / 2.0`. -/
def h_offset (p : OmegaParams) : ℚ := p.omega_trace_gap / 2 + p.trace_width / 2

end OmegaParams

/-- The four ring positions of `create_omega`, in source order; the boolean is
`true` for ring type `'top'` (gap cut at the top of the ring).  The two rings
placed above center are typed `'bottom'` and the two below center `'top'`, so
each gap faces the die center. -/
def ringPositions (p : OmegaParams) : List (ℚ × ℚ × Bool) :=
  [(p.x_center + p.offset - p.h_offset, (p.y_center + p.offset, false)),
   (p.x_center - p.offset - p.h_offset, (p.y_center + p.offset, false)),
   (p.x_center - p.offset + p.h_offset, (p.y_center - p.offset, true)),
   (p.x_center + p.offset + p.h_offset, (p.y_center - p.offset, true))]

/-- The gap rectangle that breaks one ring's loop: for a `'top'` ring it spans
from the ring center upward past the outer edge, otherwise downward. -/
def gapBox (p : OmegaParams) (cx cy : ℚ) (isTop : Bool) : DbuBox :=
  if isTop then
    mkBox p.dbu (cx - p.omega_trace_gap / 2) cy
      (cx + p.omega_trace_gap / 2) (cy + p.outer_radius + p.trace_width)
  else
    mkBox p.dbu (cx - p.omega_trace_gap / 2) (cy - p.outer_radius - p.trace_width)
      (cx + p.omega_trace_gap / 2) cy

/-- Embeds `right_conn_box`: vertical connector of the right top/bottom ring pair. -/
def rightConnBox (p : OmegaParams) : DbuBox :=
  mkBox p.dbu (p.x_center + p.offset - p.trace_width / 2)
    (p.y_center - p.offset + p.outer_radius - p.trace_width)
    (p.x_center + p.offset + p.trace_width / 2)
    (p.y_center + p.offset - p.outer_radius + p.trace_width)

/-- Embeds `left_conn_box`: vertical connector of the left top/bottom ring pair. -/
def leftConnBox (p : OmegaParams) : DbuBox :=
  mkBox p.dbu (p.x_center - p.offset - p.trace_width / 2)
    (p.y_center - p.offset + p.outer_radius - p.trace_width)
    (p.x_center - p.offset + p.trace_width / 2)
    (p.y_center + p.offset - p.outer_radius + p.trace_width)

/-- Source: `top_right_feed_x = x_center + offset - 2*h_offset`. -/
def top_right_feed_x (p : OmegaParams) : ℚ := p.x_center + p.offset - 2 * p.h_offset

/-- Source: `top_left_feed_x = x_center - offset - 2*h_offset`. -/
def top_left_feed_x (p : OmegaParams) : ℚ := p.x_center - p.offset - 2 * p.h_offset

/-- Source: `bottom_right_feed_x = x_center + offset + 2*h_offset`. -/
def bottom_right_feed_x (p : OmegaParams) : ℚ := p.x_center + p.offset + 2 * p.h_offset

/-- Source: `bottom_left_feed_x = x_center - offset + 2*h_offset`. -/
def bottom_left_feed_x (p : OmegaParams) : ℚ := p.x_center - p.offset + 2 * p.h_offset

/-- Embeds `top_right_feed_box`. -/
def topRightFeedBox (p : OmegaParams) : DbuBox :=
  mkBox p.dbu (top_right_feed_x p - p.trace_width / 2) p.y_center
    (top_right_feed_x p + p.trace_width / 2)
    (p.y_center + p.offset - p.outer_radius + p.trace_width)

/-- Embeds `top_left_feed_box`. -/
def topLeftFeedBox (p : OmegaParams) : DbuBox :=
  mkBox p.dbu (top_left_feed_x p - p.trace_width / 2) p.y_center
    (top_left_feed_x p + p.trace_width / 2)
    (p.y_center + p.offset - p.outer_radius + p.trace_width)

/-- Embeds `bottom_right_feed_box`. -/
def bottomRightFeedBox (p : OmegaParams) : DbuBox :=
  mkBox p.dbu (bottom_right_feed_x p - p.trace_width / 2)
    (p.y_center - p.offset + p.outer_radius - p.trace_width)
    (bottom_right_feed_x p + p.trace_width / 2) p.y_center

/-- Embeds `bottom_left_feed_box`. -/
def bottomLeftFeedBox (p : OmegaParams) : DbuBox :=
  mkBox p.dbu (bottom_left_feed_x p - p.trace_width / 2)
    (p.y_center - p.offset + p.outer_radius - p.trace_width)
    (bottom_left_feed_x p + p.trace_width / 2) p.y_center

/-- Source: `cpw_end_left = x_center - chip_config.aperture_radius`. -/
def cpw_end_left (p : OmegaParams) : ℚ := p.x_center - p.aperture_radius

/-- Source: `cpw_end_right = x_center + chip_config.aperture_radius`. -/
def cpw_end_right (p : OmegaParams) : ℚ := p.x_center + p.aperture_radius

/-- Embeds `top_left_cpw_box`. -/
def topLeftCpwBox (p : OmegaParams) : DbuBox :=
  mkBox p.dbu (cpw_end_left p) (p.y_center - p.trace_width / 2)
    (top_left_feed_x p + p.trace_width / 2) (p.y_center + p.trace_width / 2)

/-- Embeds `top_right_cpw_box`. -/
def topRightCpwBox (p : OmegaParams) : DbuBox :=
  mkBox p.dbu (bottom_right_feed_x p - p.trace_width / 2)
    (p.y_center - p.trace_width / 2) (cpw_end_right p)
    (p.y_center + p.trace_width / 2)

/-- Embeds `middle_connector_box`. -/
def middleConnectorBox (p : OmegaParams) : DbuBox :=
  mkBox p.dbu (bottom_left_feed_x p - p.trace_width / 2)
    (p.y_center - p.trace_width / 2) (top_right_feed_x p + p.trace_width / 2)
    (p.y_center + p.trace_width / 2)

/-- Embeds `left_taper_vertices`: trapezoid from the CPW signal width down to the
omega trace width at the left aperture edge. -/
def leftTaperPoly (p : OmegaParams) : List (ℤ × ℤ) :=
  [(um_to_dbu p.dbu (cpw_end_left p), um_to_dbu p.dbu (p.y_center - p.cpw_signal_width / 2)),
   (um_to_dbu p.dbu (cpw_end_left p + p.omega_taper_length), um_to_dbu p.dbu (p.y_center - p.trace_width / 2)),
   (um_to_dbu p.dbu (cpw_end_left p + p.omega_taper_length), um_to_dbu p.dbu (p.y_center + p.trace_width / 2)),
   (um_to_dbu p.dbu (cpw_end_left p), um_to_dbu p.dbu (p.y_center + p.cpw_signal_width / 2))]

/-- Embeds `right_taper_vertices`. -/
def rightTaperPoly (p : OmegaParams) : List (ℤ × ℤ) :=
  [(um_to_dbu p.dbu (cpw_end_right p - p.omega_taper_length), um_to_dbu p.dbu (p.y_center - p.trace_width / 2)),
   (um_to_dbu p.dbu (cpw_end_right p), um_to_dbu p.dbu (p.y_center - p.cpw_signal_width / 2)),
   (um_to_dbu p.dbu (cpw_end_right p), um_to_dbu p.dbu (p.y_center + p.cpw_signal_width / 2)),
   (um_to_dbu p.dbu (cpw_end_right p - p.omega_taper_length), um_to_dbu p.dbu (p.y_center + p.trace_width / 2))]

/-- One kernel operation of `create_omega`, in its shape-insertion order:
a ring region built as `(outer - inner) - gap` and inserted, an additive box
insertion, or an additive polygon insertion. -/
inductive OmegaEvent where
  | insertRingMinusGap (outer inner : List (ℤ × ℤ)) (gap : DbuBox)
  | insertAddBox (b : DbuBox)
  | insertAddPoly (pts : List (ℤ × ℤ))
deriving DecidableEq, Repr

/-- Whether an operation performs a gap-box subtraction. -/
def subtractsGap : OmegaEvent → Bool
  | .insertRingMinusGap .. => true
  | _ => false

/-- The ordered operation trace of `MaskDesigner.create_omega`
(= `WaferDesigner.create_omega` in `100mm_wafer_omega_V3.py`): per ring,
`(outer circle − inner circle) − gap` built and inserted; then the connectors,
feeds, CPW boxes and tapers inserted individually.  `circle` abstracts the
64-segment float tessellation `(cx, cy, radius) ↦ vertex list`. -/
def createOmegaEvents (circle : ℚ → ℚ → ℚ → List (ℤ × ℤ))
    (p : OmegaParams) : List OmegaEvent :=
  (ringPositions p).map (fun pos =>
    OmegaEvent.insertRingMinusGap (circle pos.1 pos.2.1 p.outer_radius)
      (circle pos.1 pos.2.1 p.inner_radius) (gapBox p pos.1 pos.2.1 pos.2.2)) ++
  [OmegaEvent.insertAddBox (rightConnBox p),
   OmegaEvent.insertAddBox (leftConnBox p),
   OmegaEvent.insertAddBox (topRightFeedBox p),
   OmegaEvent.insertAddBox (topLeftFeedBox p),
   OmegaEvent.insertAddBox (bottomRightFeedBox p),
   OmegaEvent.insertAddBox (bottomLeftFeedBox p),
   OmegaEvent.insertAddBox (topLeftCpwBox p),
   OmegaEvent.insertAddBox (topRightCpwBox p),
   OmegaEvent.insertAddBox (middleConnectorBox p),
   OmegaEvent.insertAddPoly (leftTaperPoly p),
   OmegaEvent.insertAddPoly (rightTaperPoly p)]

/-- The ordering invariant stated by the claim: every gap-box subtraction
happens after every additive-geometry insertion (gap subtraction is the last
step of ring synthesis). -/
def gapSubtractionIsLastStep (evs : List OmegaEvent) : Prop :=
  ∀ i j (hi : i < evs.length) (hj : j < evs.length),
    subtractsGap (evs.get ⟨i, hi⟩) = true →
      subtractsGap (evs.get ⟨j, hj⟩) = false → j < i

/-- The omega parameters of chip variant 1 of the shipped mask:
`OmegaConfig(center_radius=50, trace_width=10, omega_trace_gap=10)` with class
defaults `omega_spacing=50`, `omega_taper_length=100`, placed at the chip
center (3000, 3000) with `aperture_radius=300`, `cpw_signal_width=100`,
`dbu=0.01`. -/
def omegaParams1 : OmegaParams :=
  { dbu := 1/100
    x_center := 3000
    y_center := 3000
    center_radius := 50
    trace_width := 10
    omega_spacing := 50
    omega_trace_gap := 10
    omega_taper_length := 100
    aperture_radius := 300
    cpw_signal_width := 100 }

/-- A stand-in tessellation for the counterexample; the ordering property does
not depend on the vertex lists. -/
def circle0 : ℚ → ℚ → ℚ → List (ℤ × ℤ) := fun _ _ _ => []


theorem flatMap_if_eq_filter_map {α β : Type _} (l : List α) (f : α → β)
    (p : β → Bool) :
    (l.flatMap (fun a => if p (f a) then [f a] else [])) = (l.map f).filter p := by
  induction l with
  | nil => rfl
  | cons a t ih =>
      by_cases h : p (f a) <;> simp [h, ih]

theorem calculate_eq_filter (c : PlacementCfg) :
    calculate_chip_positions c = (candidates c).filter (acceptDie c) := by
  unfold calculate_chip_positions candidates
  rw [List.filter_flatMap]
  refine List.flatMap_congr ?_
  intro r _
  rw [List.filter_flatMap]
  refine List.flatMap_congr ?_
  intro col _
  exact flatMap_if_eq_filter_map _ (mkCand c r col) (acceptDie c)

theorem pyRange_mem {a b r : ℤ} : r ∈ pyRange a b ↔ a ≤ r ∧ r < b := by
  unfold pyRange
  simp only [List.mem_map, List.mem_range]
  constructor
  · rintro ⟨i, hi, rfl⟩
    omega
  · rintro ⟨h₁, h₂⟩
    exact ⟨(r - a).toNat, by omega, by omega⟩

theorem mem_candidates (c : PlacementCfg) {r col : ℤ} {s : ℕ × (ℚ × ℚ)}
    (hr : r ∈ rowRange c) (hcol : col ∈ colRange c)
    (hs : s ∈ (variantSlots c).enum) :
    mkCand c r col s ∈ candidates c := by
  unfold candidates
  exact List.mem_flatMap.mpr ⟨r, hr, List.mem_flatMap.mpr
    ⟨col, hcol, List.mem_map_of_mem _ hs⟩⟩

/-- For a nonnegative usable radius, `chip_fits_in_wafer` holds iff all four
corners of the die rectangle lie at distance at most the usable radius from the
wafer center (squared form; `√s ≤ r ↔ s ≤ r²` for `r ≥ 0`). -/
theorem chip_fits_iff (x y w h r : ℚ) (hrad : 0 ≤ r) :
    chip_fits_in_wafer x y w h r = true ↔
      (x * x + y * y ≤ r * r ∧
       (x + w) * (x + w) + y * y ≤ r * r ∧
       x * x + (y + h) * (y + h) ≤ r * r ∧
       (x + w) * (x + w) + (y + h) * (y + h) ≤ r * r) := by
  have hr' : ¬ (r < 0) := not_lt.mpr hrad
  simp [chip_fits_in_wafer, cornerOutside, hr', not_lt, and_assoc]

theorem chip_too_close_iff_false (c : PlacementCfg) (x y w h : ℚ) :
    chip_too_close_to_flat c x y w h = false ↔
      ¬ (y < -c.wafer_radius + c.flat_depth + flat_exclusion_zone) := by
  simp [chip_too_close_to_flat, add_assoc]

/-- Claim C1. For every candidate die position generated by the unit-cell grid scan
(any unit-cell row offset, column offset and variant slot visited by
`calculate_chip_positions_from_unit_grid`), the die appears in the output
placement list if and only if both accept predicates pass for that individual
die: all four corners of the die rectangle lie at distance at most the usable
radius from the wafer center, and the die's bottom edge is not below the flat
chord line plus the exclusion distance.  The decision is per individual die, so
a unit cell straddling the wafer edge may contribute only some of its dies. -/
theorem C1_die_placed_iff_predicates (c : PlacementCfg) (r col : ℤ)
    (s : ℕ × (ℚ × ℚ)) (hr : r ∈ rowRange c) (hcol : col ∈ colRange c)
    (hs : s ∈ (variantSlots c).enum) (hrad : 0 ≤ c.usable_radius) :
    mkCand c r col s ∈ calculate_chip_positions c ↔
      (((mkCand c r col s).x * (mkCand c r col s).x +
          (mkCand c r col s).y * (mkCand c r col s).y ≤
            c.usable_radius * c.usable_radius ∧
        ((mkCand c r col s).x + c.chip_width) * ((mkCand c r col s).x + c.chip_width) +
          (mkCand c r col s).y * (mkCand c r col s).y ≤
            c.usable_radius * c.usable_radius ∧
        (mkCand c r col s).x * (mkCand c r col s).x +
          ((mkCand c r col s).y + c.chip_height) * ((mkCand c r col s).y + c.chip_height) ≤
            c.usable_radius * c.usable_radius ∧
        ((mkCand c r col s).x + c.chip_width) * ((mkCand c r col s).x + c.chip_width) +
          ((mkCand c r col s).y + c.chip_height) * ((mkCand c r col s).y + c.chip_height) ≤
            c.usable_radius * c.usable_radius) ∧
       ¬ ((mkCand c r col s).y <
            -c.wafer_radius + c.flat_depth + flat_exclusion_zone)) := by
  rw [calculate_eq_filter, List.mem_filter]
  have hc := mem_candidates c hr hcol hs
  simp only [hc, true_and, acceptDie, Bool.and_eq_true, Bool.not_eq_true']
  rw [chip_fits_iff _ _ _ _ _ hrad, chip_too_close_iff_false]

theorem max_units_x_default : max_units_x defaultCfg = 10 := by
  have h : defaultCfg.wafer_diameter / (defaultCfg.unit_width) = (25/3 : ℚ) := by
    norm_num [defaultCfg, PlacementCfg.unit_width]
  rw [max_units_x, h]
  have : (⌈(25/3 : ℚ)⌉ : ℤ) = 9 := by
    rw [Int.ceil_eq_iff]; norm_num
  rw [this]
  rfl

theorem max_units_y_default : max_units_y defaultCfg = 7 := by
  have h : defaultCfg.wafer_diameter / (defaultCfg.unit_height) = (50/9 : ℚ) := by
    norm_num [defaultCfg, PlacementCfg.unit_height]
  rw [max_units_y, h]
  have : (⌈(50/9 : ℚ)⌉ : ℤ) = 6 := by
    rw [Int.ceil_eq_iff]; norm_num
  rw [this]
  rfl

theorem zero_mem_rowRange_default : (0 : ℤ) ∈ rowRange defaultCfg := by
  rw [rowRange, max_units_y_default]
  exact pyRange_mem.mpr ⟨by decide, by decide⟩

theorem zero_mem_colRange_default : (0 : ℤ) ∈ colRange defaultCfg := by
  rw [colRange, max_units_x_default]
  exact pyRange_mem.mpr ⟨by decide, by decide⟩

theorem slot0_mem_enum_default :
    ((0 : ℕ), ((0 : ℚ), (0 : ℚ))) ∈ (variantSlots defaultCfg).enum := by
  have h : variantSlots defaultCfg =
      [(0, 0), (6000, 0), (0, 6000), (6000, 6000), (0, 12000), (6000, 12000)] := by
    simp [variantSlots, defaultCfg, List.range_succ]
    norm_num
  rw [h]
  simp [List.enum]

/-- Witness for C1 at the shipped configuration: the slot at unit offset (0,0),
variant 0 — a die at (-6000, -9000) — with the placement decision matching the
two predicates. -/
theorem C1_die_placed_iff_predicates_witness :
    (0 : ℤ) ∈ rowRange defaultCfg ∧ (0 : ℤ) ∈ colRange defaultCfg ∧
      ((0 : ℕ), ((0 : ℚ), (0 : ℚ))) ∈ (variantSlots defaultCfg).enum ∧
      (0 : ℚ) ≤ defaultCfg.usable_radius ∧
      (mkCand defaultCfg 0 0 (0, (0, 0)) ∈ calculate_chip_positions defaultCfg ↔
        (((mkCand defaultCfg 0 0 (0, (0, 0))).x * (mkCand defaultCfg 0 0 (0, (0, 0))).x +
            (mkCand defaultCfg 0 0 (0, (0, 0))).y * (mkCand defaultCfg 0 0 (0, (0, 0))).y ≤
              defaultCfg.usable_radius * defaultCfg.usable_radius ∧
          ((mkCand defaultCfg 0 0 (0, (0, 0))).x + defaultCfg.chip_width) *
              ((mkCand defaultCfg 0 0 (0, (0, 0))).x + defaultCfg.chip_width) +
            (mkCand defaultCfg 0 0 (0, (0, 0))).y * (mkCand defaultCfg 0 0 (0, (0, 0))).y ≤
              defaultCfg.usable_radius * defaultCfg.usable_radius ∧
          (mkCand defaultCfg 0 0 (0, (0, 0))).x * (mkCand defaultCfg 0 0 (0, (0, 0))).x +
            ((mkCand defaultCfg 0 0 (0, (0, 0))).y + defaultCfg.chip_height) *
              ((mkCand defaultCfg 0 0 (0, (0, 0))).y + defaultCfg.chip_height) ≤
              defaultCfg.usable_radius * defaultCfg.usable_radius ∧
          ((mkCand defaultCfg 0 0 (0, (0, 0))).x + defaultCfg.chip_width) *
              ((mkCand defaultCfg 0 0 (0, (0, 0))).x + defaultCfg.chip_width) +
            ((mkCand defaultCfg 0 0 (0, (0, 0))).y + defaultCfg.chip_height) *
              ((mkCand defaultCfg 0 0 (0, (0, 0))).y + defaultCfg.chip_height) ≤
              defaultCfg.usable_radius * defaultCfg.usable_radius) ∧
         ¬ ((mkCand defaultCfg 0 0 (0, (0, 0))).y <
              -defaultCfg.wafer_radius + defaultCfg.flat_depth + flat_exclusion_zone))) :=
  ⟨zero_mem_rowRange_default, zero_mem_colRange_default, slot0_mem_enum_default,
   by norm_num [defaultCfg, PlacementCfg.usable_radius],
   C1_die_placed_iff_predicates defaultCfg 0 0 (0, (0, 0))
     zero_mem_rowRange_default zero_mem_colRange_default slot0_mem_enum_default
     (by norm_num [defaultCfg, PlacementCfg.usable_radius])⟩

/-- Claim C5. The flat-exclusion predicate rejects a die exactly when the die's
bottom-edge y-coordinate is strictly below the flat chord line
(`flat_y = -wafer_radius + flat_depth`) plus the fixed exclusion distance
2250 µm; a die whose bottom edge is at or above that line is not rejected. -/
theorem C5_flat_exclusion_iff (c : PlacementCfg) (x y w h : ℚ) :
    chip_too_close_to_flat c x y w h = true ↔
      y < (-c.wafer_radius + c.flat_depth) + flat_exclusion_zone := by
  simp [chip_too_close_to_flat]

/-- Claim C10. The flat-exclusion predicate depends only on the die's bottom-edge
y-coordinate (and the wafer constants): two calls agreeing on `chip_y` but with
arbitrary `chip_x`, `chip_width`, `chip_height` return the same boolean. -/
theorem C10_flat_exclusion_depends_only_on_bottom (c : PlacementCfg)
    (x x' y w w' h h' : ℚ) :
    chip_too_close_to_flat c x y w h = chip_too_close_to_flat c x' y w' h' := rfl

theorem pyRange_sorted (a b : ℤ) : (pyRange a b).Pairwise (· < ·) := by
  unfold pyRange
  refine List.Pairwise.map _ ?_ (List.pairwise_lt_range _)
  intro i j hij
  omega

/-- Claim C6. The placement computation is deterministic: identical configuration
inputs produce identical placement lists, element for element and in order;
moreover the output is an order-preserving sublist of the candidate enumeration,
whose unit-cell row and column offsets are iterated in strictly ascending
(row-major) order. -/
theorem C6_placement_deterministic (c₁ c₂ : PlacementCfg) (h : c₁ = c₂) :
    calculate_chip_positions c₁ = calculate_chip_positions c₂ ∧
      (calculate_chip_positions c₁).Sublist (candidates c₁) ∧
      (rowRange c₁).Pairwise (· < ·) ∧ (colRange c₁).Pairwise (· < ·) := by
  subst h
  refine ⟨rfl, ?_, pyRange_sorted _ _, pyRange_sorted _ _⟩
  rw [calculate_eq_filter]
  exact List.filter_sublist _

/-- Witness for C6 at the shipped configuration. -/
theorem C6_placement_deterministic_witness :
    calculate_chip_positions defaultCfg = calculate_chip_positions defaultCfg ∧
      (calculate_chip_positions defaultCfg).Sublist (candidates defaultCfg) ∧
      (rowRange defaultCfg).Pairwise (· < ·) ∧
      (colRange defaultCfg).Pairwise (· < ·) :=
  C6_placement_deterministic defaultCfg defaultCfg rfl

/-- Claim C7, counterexample. At the shipped configuration the y-axis scan visits 8
unit-cell row offsets, but `ceil(wafer diameter / unit extent) + 1 = 7`: the
claimed per-axis offset count is off by one. -/
theorem C7_counterexample :
    (rowRange defaultCfg).length = 8 ∧
      ⌈defaultCfg.wafer_diameter / defaultCfg.unit_height⌉ + 1 ≠ (8 : ℤ) := by
  constructor
  · rw [rowRange, max_units_y_default]
    rfl
  · have h : max_units_y defaultCfg = 7 := max_units_y_default
    rw [max_units_y] at h
    omega

theorem pyRange_length (a b : ℤ) : (pyRange a b).length = (b - a).toNat := by
  simp [pyRange]

theorem fdiv_split (m : ℤ) : Int.fdiv m 2 - Int.fdiv (-m) 2 = m := by
  rw [Int.fdiv_eq_ediv _ (by norm_num), Int.fdiv_eq_ediv _ (by norm_num)]
  omega

/-- Claim C7, amended. The placement engine enumerates unit-cell grid offsets over
a bounded range of `ceil(wafer diameter / unit extent) + 2` offsets in each axis
(from `-(m+1)/2` rounded down to `(m+1)/2` rounded down, `m` the ceiling), and
the scan is exhaustive: every offset in that range, and every variant slot within
each offset, is visited. -/
theorem C7_exhaustive_bounded_scan (c : PlacementCfg)
    (hd : 0 < c.wafer_diameter) (hU : 0 < c.unit_width) (hV : 0 < c.unit_height) :
    (rowRange c).length = (⌈c.wafer_diameter / c.unit_height⌉ + 2).toNat ∧
    (colRange c).length = (⌈c.wafer_diameter / c.unit_width⌉ + 2).toNat ∧
    (∀ r : ℤ, Int.fdiv (-(max_units_y c)) 2 ≤ r → r ≤ Int.fdiv (max_units_y c) 2 →
        r ∈ rowRange c) ∧
    (∀ col : ℤ, Int.fdiv (-(max_units_x c)) 2 ≤ col →
        col ≤ Int.fdiv (max_units_x c) 2 → col ∈ colRange c) ∧
    (∀ r ∈ rowRange c, ∀ col ∈ colRange c, ∀ s ∈ (variantSlots c).enum,
        mkCand c r col s ∈ candidates c) := by
  have hceily : (0 : ℤ) < ⌈c.wafer_diameter / c.unit_height⌉ :=
    Int.ceil_pos.mpr (div_pos hd hV)
  have hceilx : (0 : ℤ) < ⌈c.wafer_diameter / c.unit_width⌉ :=
    Int.ceil_pos.mpr (div_pos hd hU)
  refine ⟨?_, ?_, ?_, ?_, ?_⟩
  · rw [rowRange, pyRange_length]
    have h := fdiv_split (max_units_y c)
    rw [max_units_y] at *
    omega
  · rw [colRange, pyRange_length]
    have h := fdiv_split (max_units_x c)
    rw [max_units_x] at *
    omega
  · intro r h₁ h₂
    rw [rowRange]
    exact pyRange_mem.mpr ⟨h₁, by omega⟩
  · intro col h₁ h₂
    rw [colRange]
    exact pyRange_mem.mpr ⟨h₁, by omega⟩
  · intro r hr col hcol s hs
    exact mem_candidates c hr hcol hs

/-- Witness for C7 (amended) at the shipped configuration. -/
theorem C7_exhaustive_bounded_scan_witness :
    (0 : ℚ) < defaultCfg.wafer_diameter ∧ (0 : ℚ) < defaultCfg.unit_width ∧
      (0 : ℚ) < defaultCfg.unit_height ∧
      ((rowRange defaultCfg).length =
        (⌈defaultCfg.wafer_diameter / defaultCfg.unit_height⌉ + 2).toNat) := by
  have h1 : (0 : ℚ) < defaultCfg.wafer_diameter := by norm_num [defaultCfg]
  have h2 : (0 : ℚ) < defaultCfg.unit_width := by
    norm_num [defaultCfg, PlacementCfg.unit_width]
  have h3 : (0 : ℚ) < defaultCfg.unit_height := by
    norm_num [defaultCfg, PlacementCfg.unit_height]
  exact ⟨h1, h2, h3, (C7_exhaustive_bounded_scan defaultCfg h1 h2 h3).1⟩

theorem pyRound_abs_le (q : ℚ) : |(pyRound q : ℚ) - q| ≤ 1/2 := by
  have hfl : (⌊q⌋ : ℚ) ≤ q := Int.floor_le q
  have hfu : q < (⌊q⌋ : ℚ) + 1 := Int.lt_floor_add_one q
  simp only [pyRound]
  split_ifs with h1 h2 h3 <;> rw [abs_le] <;> constructor <;> push_cast <;> linarith

/-- Claim C3. Round-trip of the unit converter: converting a micrometer value to
integer grid units with `_um_to_dbu` and converting back (multiplying by the
database unit) recovers the original value to within half a grid unit:
`|um − dbu · um_to_dbu(um)| ≤ dbu / 2`. -/
theorem C3_um_dbu_roundtrip (dbu um : ℚ) (h : 0 < dbu) :
    |um - dbu * (um_to_dbu dbu um : ℚ)| ≤ dbu / 2 := by
  have hb := pyRound_abs_le (um / dbu)
  have key : um - dbu * (um_to_dbu dbu um : ℚ) =
      -(dbu * ((pyRound (um / dbu) : ℚ) - um / dbu)) := by
    rw [um_to_dbu]
    field_simp
    ring
  rw [key, abs_neg, abs_mul, abs_of_pos h]
  calc dbu * |(pyRound (um / dbu) : ℚ) - um / dbu| ≤ dbu * (1/2) := by
        exact mul_le_mul_of_nonneg_left hb h.le
    _ = dbu / 2 := by ring

/-- Witness for C3: `dbu = 0.01`, `um = 3.456`; the round-trip error is within
half a database unit. -/
theorem C3_um_dbu_roundtrip_witness :
    (0 : ℚ) < 1/100 ∧
      |(3456/1000 : ℚ) - (1/100) * (um_to_dbu (1/100) (3456/1000) : ℚ)| ≤
        (1/100) / 2 :=
  ⟨by norm_num, C3_um_dbu_roundtrip (1/100) (3456/1000) (by norm_num)⟩

/-- Claim C9, counterexample. Constructing an omega die variant with a non-positive
dimension (`center_radius = -5`, `trace_width = 0` — also inconsistent: the
trace is wider than twice the center radius) does **not** fail: `__init__`
succeeds and stores the values verbatim. -/
theorem C9_counterexample :
    OmegaConfig.init (some (-5)) (some 0) none none none =
      .ok { center_radius := -5, trace_width := 0, omega_spacing := 50,
            omega_trace_gap := 15, omega_taper_length := 100 } := rfl

/-- Claim C9, amended. Die-variant construction performs no validation at all:
`OmegaConfig.__init__` accepts arbitrary override values — including
non-positive or physically inconsistent dimensions — never raises, and stores
the supplied values verbatim; invalid dimensions are not caught at
variant-construction time. -/
theorem C9_no_validation_at_construction (cr tw sp gap tl : ℚ) :
    OmegaConfig.init (some cr) (some tw) (some sp) (some gap) (some tl) =
      .ok { center_radius := cr, trace_width := tw, omega_spacing := sp,
            omega_trace_gap := gap, omega_taper_length := tl } := rfl

theorem flatMap_range_map_length {β : Type _} (m n : ℕ) (f : ℕ → ℕ → β) :
    ((List.range m).flatMap (fun r => (List.range n).map (f r))).length = m * n := by
  induction m with
  | zero => simp
  | succ k ih =>
      rw [List.range_succ, List.flatMap_append]
      simp [ih, Nat.succ_mul]

theorem flatMap_range_map_getElem {β : Type _} (m n : ℕ) (f : ℕ → ℕ → β)
    (i : ℕ) (hi : i < m * n) :
    ((List.range m).flatMap (fun r => (List.range n).map (f r)))[i]? =
      some (f (i / n) (i % n)) := by
  induction m with
  | zero => simp at hi
  | succ k ih =>
      have hmul : (k + 1) * n = k * n + n := by ring
      rw [List.range_succ, List.flatMap_append, List.getElem?_append]
      rw [flatMap_range_map_length]
      by_cases h : i < k * n
      · rw [if_pos h]
        exact ih h
      · rw [if_neg h]
        have hn : 0 < n := Nat.pos_of_ne_zero (by rintro rfl; simp at hi)
        obtain ⟨r, hir, hrn⟩ : ∃ r, i = k * n + r ∧ r < n :=
          ⟨i - k * n, by omega, by omega⟩
        subst hir
        have h2 : (k * n + r) / n = k := by
          rw [Nat.mul_comm k n, Nat.mul_add_div hn, Nat.div_eq_of_lt hrn]
          omega
        have h3 : (k * n + r) % n = r := by
          rw [Nat.mul_comm k n, Nat.mul_add_mod]
          exact Nat.mod_eq_of_lt hrn
        have h4 : k * n + r - k * n = r := by omega
        simp only [List.flatMap_cons, List.flatMap_nil, List.append_nil]
        rw [h4, List.getElem?_map, List.getElem?_range hrn, h2, h3]
        rfl

theorem variantSlots_length (c : PlacementCfg) :
    (variantSlots c).length = c.chip_count_y * c.chip_count_x := by
  unfold variantSlots
  exact flatMap_range_map_length _ _ _

theorem variantSlots_getElem (c : PlacementCfg) (i : ℕ)
    (hi : i < c.chip_count_y * c.chip_count_x) :
    (variantSlots c)[i]? =
      some (((i % c.chip_count_x : ℕ) : ℚ) * (c.chip_width + c.chip_spacing),
            ((i / c.chip_count_x : ℕ) : ℚ) * (c.chip_height + c.chip_spacing)) := by
  unfold variantSlots
  exact flatMap_range_map_getElem _ _
    (fun row col => ((col : ℚ) * (c.chip_width + c.chip_spacing),
      (row : ℚ) * (c.chip_height + c.chip_spacing))) i hi

/-- Decomposition of a member of the candidate list: it comes from a unit-cell
offset `(r, col)` and a slot `(b, a)` of the variant grid, with the source's
coordinate formulas and the row-major slot index `b * chip_count_x + a`. -/
theorem cand_decomp (c : PlacementCfg) {p : Placement} (hp : p ∈ candidates c) :
    ∃ (r col : ℤ) (b a : ℕ),
      r ∈ rowRange c ∧ col ∈ colRange c ∧
      b < c.chip_count_y ∧ a < c.chip_count_x ∧
      p.x = -(c.unit_width) / 2 + (col : ℚ) * c.unit_width +
        (a : ℚ) * (c.chip_width + c.chip_spacing) ∧
      p.y = -(c.unit_height) / 2 + (r : ℚ) * c.unit_height +
        (b : ℚ) * (c.chip_height + c.chip_spacing) ∧
      p.variant = b * c.chip_count_x + a := by
  unfold candidates at hp
  obtain ⟨r, hr, hp⟩ := List.mem_flatMap.mp hp
  obtain ⟨col, hcol, hp⟩ := List.mem_flatMap.mp hp
  obtain ⟨s, hs, rfl⟩ := List.mem_map.mp hp
  have hget : (variantSlots c)[s.1]? = some s.2 :=
    List.mem_enum_iff_getElem?.mp hs
  have hlt : s.1 < (variantSlots c).length := (List.getElem?_eq_some.mp hget).1
  rw [variantSlots_length] at hlt
  have hx : 0 < c.chip_count_x :=
    Nat.pos_of_ne_zero (by rintro h0; rw [h0, Nat.mul_zero] at hlt; omega)
  refine ⟨r, col, s.1 / c.chip_count_x, s.1 % c.chip_count_x, hr, hcol,
    Nat.div_lt_of_lt_mul (by rwa [Nat.mul_comm] at hlt), Nat.mod_lt _ hx,
    ?_, ?_, ?_⟩
  · rw [variantSlots_getElem c s.1 hlt] at hget
    have h2 : s.2 = (((s.1 % c.chip_count_x : ℕ) : ℚ) * (c.chip_width + c.chip_spacing),
        ((s.1 / c.chip_count_x : ℕ) : ℚ) * (c.chip_height + c.chip_spacing)) := by
      injection hget with h
      exact h.symm
    simp [mkCand, candidateAt, h2]
  · rw [variantSlots_getElem c s.1 hlt] at hget
    have h2 : s.2 = (((s.1 % c.chip_count_x : ℕ) : ℚ) * (c.chip_width + c.chip_spacing),
        ((s.1 / c.chip_count_x : ℕ) : ℚ) * (c.chip_height + c.chip_spacing)) := by
      injection hget with h
      exact h.symm
    simp [mkCand, candidateAt, h2]
  · simp only [mkCand]
    rw [Nat.mul_comm (s.1 / c.chip_count_x) c.chip_count_x]
    exact (Nat.div_add_mod s.1 c.chip_count_x).symm

/-- On the one-dimensional placement lattice `k ↦ k·U + a·(w+sp)` with
`U = N·w + (N−1)·sp` and `0 ≤ a < N`, two distinct lattice points (distinct
`(k, a)` pairs) are at least `w` apart.  Case `1 ≤ d` of the difference. -/
theorem lattice_gap_pos (w sp : ℚ) (N : ℕ) (d e : ℤ) (hw : 0 < w) (hsp : 0 ≤ sp)
    (hN : (1 : ℤ) ≤ (N : ℤ)) (he₁ : -((N : ℤ) - 1) ≤ e) (hd : 1 ≤ d) :
    w ≤ (d : ℚ) * ((N : ℚ) * w + ((N : ℚ) - 1) * sp) + (e : ℚ) * (w + sp) := by
  have hNq : (1 : ℚ) ≤ (N : ℚ) := by exact_mod_cast hN
  have hdq : (1 : ℚ) ≤ (d : ℚ) := by exact_mod_cast hd
  have heq : -((N : ℚ) - 1) ≤ (e : ℚ) := by
    have : ((-((N : ℤ) - 1) : ℤ) : ℚ) ≤ ((e : ℤ) : ℚ) := by exact_mod_cast he₁
    push_cast at this
    linarith
  have h1 : 0 ≤ ((d : ℚ) - 1) * ((N : ℚ) * w) :=
    mul_nonneg (by linarith) (mul_nonneg (by linarith) hw.le)
  have h2 : 0 ≤ ((d : ℚ) - 1) * (((N : ℚ) - 1) * sp) :=
    mul_nonneg (by linarith) (mul_nonneg (by linarith) hsp)
  have h3 : -(((N : ℚ) - 1) * w) ≤ (e : ℚ) * w := by
    have := mul_le_mul_of_nonneg_right heq hw.le
    linarith
  have h4 : -(((N : ℚ) - 1) * sp) ≤ (e : ℚ) * sp := by
    have := mul_le_mul_of_nonneg_right heq hsp
    linarith
  nlinarith [h1, h2, h3, h4]

theorem lattice_gap (w sp : ℚ) (N : ℕ) (d e : ℤ) (hw : 0 < w) (hsp : 0 ≤ sp)
    (he₁ : -((N : ℤ) - 1) ≤ e) (he₂ : e ≤ (N : ℤ) - 1) (hne : ¬(d = 0 ∧ e = 0)) :
    w ≤ |(d : ℚ) * ((N : ℚ) * w + ((N : ℚ) - 1) * sp) + (e : ℚ) * (w + sp)| := by
  have hN : (1 : ℤ) ≤ (N : ℤ) := by omega
  rcases lt_trichotomy d 0 with hd | hd | hd
  · have key := lattice_gap_pos w sp N (-d) (-e) hw hsp hN (by omega) (by omega)
    rw [← abs_neg]
    refine le_trans ?_ (le_abs_self _)
    push_cast at key ⊢
    linarith
  · subst hd
    have he : e ≠ 0 := fun h => hne ⟨rfl, h⟩
    have h1 : (1 : ℚ) ≤ |(e : ℚ)| := by
      have := Int.one_le_abs he
      calc (1 : ℚ) ≤ ((|e| : ℤ) : ℚ) := by exact_mod_cast this
        _ = |(e : ℚ)| := by push_cast; rfl
    have hws : 0 < w + sp := by linarith
    rw [Int.cast_zero, zero_mul, zero_add, abs_mul, abs_of_pos hws]
    nlinarith [h1, hws]
  · have key := lattice_gap_pos w sp N d e hw hsp hN he₁ (by omega)
    exact le_trans key (le_abs_self _)

/-- The x-coordinate formula of a candidate die. -/
theorem coord_gap (w sp : ℚ) (N : ℕ) (hw : 0 < w) (hsp : 0 ≤ sp)
    (c₁ c₂ : ℤ) (a₁ a₂ : ℕ) (ha₁ : a₁ < N) (ha₂ : a₂ < N)
    (hne : ¬(c₁ = c₂ ∧ a₁ = a₂)) :
    w ≤ |(-(((N : ℚ) * w + ((N : ℚ) - 1) * sp)) / 2 +
            (c₁ : ℚ) * ((N : ℚ) * w + ((N : ℚ) - 1) * sp) + (a₁ : ℚ) * (w + sp)) -
          (-(((N : ℚ) * w + ((N : ℚ) - 1) * sp)) / 2 +
            (c₂ : ℚ) * ((N : ℚ) * w + ((N : ℚ) - 1) * sp) + (a₂ : ℚ) * (w + sp))| := by
  have hkey := lattice_gap w sp N (c₁ - c₂) ((a₁ : ℤ) - (a₂ : ℤ)) hw hsp
    (by omega) (by omega)
    (by
      rintro ⟨h1, h2⟩
      exact hne ⟨by omega, by omega⟩)
  have heq : (-(((N : ℚ) * w + ((N : ℚ) - 1) * sp)) / 2 +
        (c₁ : ℚ) * ((N : ℚ) * w + ((N : ℚ) - 1) * sp) + (a₁ : ℚ) * (w + sp)) -
      (-(((N : ℚ) * w + ((N : ℚ) - 1) * sp)) / 2 +
        (c₂ : ℚ) * ((N : ℚ) * w + ((N : ℚ) - 1) * sp) + (a₂ : ℚ) * (w + sp)) =
      ((c₁ - c₂ : ℤ) : ℚ) * ((N : ℚ) * w + ((N : ℚ) - 1) * sp) +
        (((a₁ : ℤ) - (a₂ : ℤ) : ℤ) : ℚ) * (w + sp) := by
    push_cast
    ring
  rw [heq]
  exact hkey

/-- Claim C8. Under the precondition that the die dimensions are positive and the
chip spacing nonnegative (all variants share the same die bounding extent: the
engine uses the base config's `chip_width`/`chip_height` for every variant), any
two distinct placements in the output list have non-overlapping die rectangles:
their rectangles of the shared width and height are separated along the x-axis
or along the y-axis.  No overlap detection is performed; this holds by
construction of the grid. -/
theorem C8_placements_disjoint (c : PlacementCfg)
    (hw : 0 < c.chip_width) (hh : 0 < c.chip_height) (hsp : 0 ≤ c.chip_spacing) :
    ∀ p ∈ calculate_chip_positions c, ∀ q ∈ calculate_chip_positions c,
      p ≠ q →
        p.x + c.chip_width ≤ q.x ∨ q.x + c.chip_width ≤ p.x ∨
        p.y + c.chip_height ≤ q.y ∨ q.y + c.chip_height ≤ p.y := by
  intro p hp q hq hne
  rw [calculate_eq_filter] at hp hq
  obtain ⟨r₁, col₁, b₁, a₁, _, _, hb₁, ha₁, hx₁, hy₁, hv₁⟩ :=
    cand_decomp c (List.mem_filter.mp hp).1
  obtain ⟨r₂, col₂, b₂, a₂, _, _, hb₂, ha₂, hx₂, hy₂, hv₂⟩ :=
    cand_decomp c (List.mem_filter.mp hq).1
  by_cases hxc : col₁ = col₂ ∧ a₁ = a₂
  · by_cases hyc : r₁ = r₂ ∧ b₁ = b₂
    · exfalso
      apply hne
      have hx : p.x = q.x := by rw [hx₁, hx₂, hxc.1, hxc.2]
      have hy : p.y = q.y := by rw [hy₁, hy₂, hyc.1, hyc.2]
      have hv : p.variant = q.variant := by rw [hv₁, hv₂, hyc.2, hxc.2]
      cases p; cases q
      simp_all
    · have := coord_gap c.chip_height c.chip_spacing c.chip_count_y hh hsp
        r₁ r₂ b₁ b₂ hb₁ hb₂ hyc
      have hdiff : p.y - q.y =
          (-(((c.chip_count_y : ℚ) * c.chip_height + ((c.chip_count_y : ℚ) - 1) *
              c.chip_spacing)) / 2 +
            (r₁ : ℚ) * ((c.chip_count_y : ℚ) * c.chip_height +
              ((c.chip_count_y : ℚ) - 1) * c.chip_spacing) +
            (b₁ : ℚ) * (c.chip_height + c.chip_spacing)) -
          (-(((c.chip_count_y : ℚ) * c.chip_height + ((c.chip_count_y : ℚ) - 1) *
              c.chip_spacing)) / 2 +
            (r₂ : ℚ) * ((c.chip_count_y : ℚ) * c.chip_height +
              ((c.chip_count_y : ℚ) - 1) * c.chip_spacing) +
            (b₂ : ℚ) * (c.chip_height + c.chip_spacing)) := by
        rw [hy₁, hy₂]
        unfold PlacementCfg.unit_height
        ring
      rw [← hdiff] at this
      rcases le_abs.mp this with h | h
      · right; right; right; linarith
      · right; right; left; linarith
  · have := coord_gap c.chip_width c.chip_spacing c.chip_count_x hw hsp
      col₁ col₂ a₁ a₂ ha₁ ha₂ hxc
    have hdiff : p.x - q.x =
        (-(((c.chip_count_x : ℚ) * c.chip_width + ((c.chip_count_x : ℚ) - 1) *
            c.chip_spacing)) / 2 +
          (col₁ : ℚ) * ((c.chip_count_x : ℚ) * c.chip_width +
            ((c.chip_count_x : ℚ) - 1) * c.chip_spacing) +
          (a₁ : ℚ) * (c.chip_width + c.chip_spacing)) -
        (-(((c.chip_count_x : ℚ) * c.chip_width + ((c.chip_count_x : ℚ) - 1) *
            c.chip_spacing)) / 2 +
          (col₂ : ℚ) * ((c.chip_count_x : ℚ) * c.chip_width +
            ((c.chip_count_x : ℚ) - 1) * c.chip_spacing) +
          (a₂ : ℚ) * (c.chip_width + c.chip_spacing)) := by
      rw [hx₁, hx₂]
      unfold PlacementCfg.unit_width
      ring
    rw [← hdiff] at this
    rcases le_abs.mp this with h | h
    · right; left; linarith
    · left; linarith

/-- Witness for C8 at the shipped configuration (positive die dimensions,
zero spacing). -/
theorem C8_placements_disjoint_witness :
    (0 : ℚ) < defaultCfg.chip_width ∧ (0 : ℚ) < defaultCfg.chip_height ∧
      (0 : ℚ) ≤ defaultCfg.chip_spacing ∧
      (∀ p ∈ calculate_chip_positions defaultCfg,
        ∀ q ∈ calculate_chip_positions defaultCfg, p ≠ q →
          p.x + defaultCfg.chip_width ≤ q.x ∨
          q.x + defaultCfg.chip_width ≤ p.x ∨
          p.y + defaultCfg.chip_height ≤ q.y ∨
          q.y + defaultCfg.chip_height ≤ p.y) :=
  ⟨by norm_num [defaultCfg], by norm_num [defaultCfg], by norm_num [defaultCfg],
   C8_placements_disjoint defaultCfg (by norm_num [defaultCfg])
     (by norm_num [defaultCfg]) (by norm_num [defaultCfg])⟩


/-- Claim C2, counterexample. In the operation trace of `create_omega` at the shipped
chip-1 parameters, the gap subtractions are *not* the last step: operation 0
(the first ring, whose gap is subtracted during its construction) precedes
operation 4 (the insertion of the left pair connector, additive geometry).
The additive geometry is therefore not merged into one region before the gap
rectangles are subtracted. -/
theorem C2_counterexample :
    ¬ gapSubtractionIsLastStep (createOmegaEvents circle0 omegaParams1) := by
  intro h
  have h04 := h 0 4 (by norm_num [createOmegaEvents, ringPositions])
    (by norm_num [createOmegaEvents, ringPositions]) rfl rfl
  omega

/-- Claim C2, amended. In ring-array synthesis each ring's gap rectangle is
subtracted from that ring's own annulus immediately — the region built and
inserted per ring is `(outer circle − inner circle) − gap` — *before* any of
the pair connectors, feed lines, CPW connection boxes or tapers is inserted;
those additive shapes are then inserted individually (merging happens only in
the final flatten/merge pass of export), so gap subtraction is the first,
per-ring step of ring synthesis, not a final global step. -/
theorem C2_gaps_subtracted_per_ring (circle : ℚ → ℚ → ℚ → List (ℤ × ℤ))
    (p : OmegaParams) :
    (createOmegaEvents circle p).take 4 =
      (ringPositions p).map (fun pos =>
        OmegaEvent.insertRingMinusGap (circle pos.1 pos.2.1 p.outer_radius)
          (circle pos.1 pos.2.1 p.inner_radius)
          (gapBox p pos.1 pos.2.1 pos.2.2)) ∧
    ((createOmegaEvents circle p).take 4).all subtractsGap = true ∧
    ((createOmegaEvents circle p).drop 4).all (fun e => ! subtractsGap e) = true :=
  ⟨rfl, rfl, rfl⟩

end LithoLayouts
